import Mathlib

/-!
Shallow embedding of the RQC-Hash repository (sha-666).

Modelled source files:
* `src/sha-666/IBM/rqc_hash_ibm.py` — `build_random_circuit`,
  `most_frequent_bitstring`, `to_hash_hex`, and the backend dispatch of `main`.
* `src/sha-666/microsft/rqc_hash_visual_notebook.py` — `build_random_circuit`
  and `encode_message`.

The pseudo-random stream produced by `np.random.default_rng(seed)` is external
library code; it is abstracted as a function `s : Nat → ℝ` giving the
successive values of `rng.random()` in the order they are drawn.  Python float
arithmetic is idealized as real arithmetic.  Python dictionaries (the counts
returned by a backend) are modelled as association lists in iteration
(insertion) order.
-/

namespace RQC

/-- The operations appearing in a circuit description: `SetBit q v` models
`qc.x(q)` applied during message encoding (value always 1), `RotateZ q a`
models `qc.rz(a, q)`, `RotateX q a` models `qc.rx(a, q)`, `Entangle a b`
models `qc.cx(a, b)`, and `MeasureAll` models the terminal
`qc.measure(range(n), range(n))`. -/
inductive Op : Type
  | SetBit : Nat → Nat → Op
  | RotateZ : Nat → ℝ → Op
  | RotateX : Nat → ℝ → Op
  | Entangle : Nat → Nat → Op
  | MeasureAll : Op

/-! ## Message encoder (`rqc_hash_ibm.py` lines 72–80) -/

/-- Inner loop `for i in range(8)` of the encoder, for one byte `b`.
`fuel` counts the bit positions of the byte still to visit (starts at 8);
the current bit is recovered by repeated halving (`b >>> 1` after each
step), so bits are consumed least-significant first.  The guard
`bitIdx ≥ n` models `if bit_idx >= n_qubits: break`.  Returns the appended
operations together with the final running bit index. -/
def encodeByte (n : Nat) : Nat → Nat → Nat → List Op × Nat
  | _, bitIdx, 0 => ([], bitIdx)
  | b, bitIdx, fuel + 1 =>
    if bitIdx ≥ n then ([], bitIdx)
    else
      let r := encodeByte n (b >>> 1) (bitIdx + 1) fuel
      if b % 2 = 1 then (Op.SetBit bitIdx 1 :: r.1, r.2) else r

/-- Outer loop `for b in message` of the encoder, threading the running
bit index through the bytes (after an inner `break`, later bytes re-enter
the inner loop and immediately break again, appending nothing). -/
def encodeFrom (n : Nat) : List Nat → Nat → List Op
  | [], _ => []
  | b :: rest, bitIdx =>
    let r := encodeByte n b bitIdx 8
    r.1 ++ encodeFrom n rest r.2

/-- The message-encoding prefix of `build_random_circuit`
(`rqc_hash_ibm.py` lines 72–80): `bit_idx = 0` then the nested loops. -/
def encode (message : List Nat) (n : Nat) : List Op :=
  encodeFrom n message 0

/-- The flattened bit sequence of a message, exactly as built by
`encode_message` in `rqc_hash_visual_notebook.py` lines 31–34:
`bits = [(b >> i) & 1 for b in msg_bytes for i in range(8)]`. -/
def msgBits (message : List Nat) : List Nat :=
  message.flatMap (fun b => (List.range 8).map (fun i => (b >>> i) % 2))

/-- The enumeration loop of `encode_message`
(`rqc_hash_visual_notebook.py` lines 35–38): `for i, bit in
enumerate(bits): if i >= n_qubits: break; if bit: qc.x(i)`.  Returning
`[]` at the guard models `break` (everything after it is dropped). -/
def encodeEnum (n : Nat) : List (Nat × Nat) → List Op
  | [] => []
  | (i, bit) :: rest =>
    if i ≥ n then []
    else (if bit ≠ 0 then [Op.SetBit i 1] else []) ++ encodeEnum n rest

/-- `encode_message` of `rqc_hash_visual_notebook.py` (lines 29–39),
restricted to the `X`-operations it appends. -/
def encode_message (message : List Nat) (n : Nat) : List Op :=
  encodeEnum n (msgBits message).enum

/-! ## Digest collapser (`rqc_hash_ibm.py` lines 103–112) -/

/-- `most_frequent_bitstring(counts)`: Python
`max(counts.items(), key=lambda kv: kv[1])[0] if counts else ""`.
Python's `max` scans the items in iteration order and replaces the current
best only on a strictly greater key, so it returns the first item
attaining the maximum count. -/
def most_frequent_bitstring : List (String × Nat) → String
  | [] => ""
  | kv :: rest => (rest.foldl (fun best x => if x.2 > best.2 then x else best) kv).1

/-- `int(s, 2)` on a binary string: most-significant character first. -/
def binToNat (s : String) : Nat :=
  s.data.foldl (fun acc c => 2 * acc + (if c = '1' then 1 else 0)) 0

/-- The hexadecimal digit characters used by Python's `"x"` format:
`0`–`9` then lowercase `a`–`f`. -/
def hexDigit (d : Nat) : Char :=
  if d < 10 then Char.ofNat (48 + d) else Char.ofNat (87 + d)

/-- Minimal base-16 digit list of `n` (most-significant first), empty for 0.
`fuel` bounds the recursion; it is always called with `fuel = n`. -/
def hexRepAux : Nat → Nat → List Char
  | 0, _ => []
  | fuel + 1, n => if n = 0 then [] else hexRepAux fuel (n / 16) ++ [hexDigit (n % 16)]

/-- Zero-padding to width `w`, as done by Python's `0{w}x` format spec. -/
def padZero (w : Nat) (ds : List Char) : List Char :=
  List.replicate (w - ds.length) '0' ++ ds

/-- `to_hash_hex(bitstr, n_qubits)` (`rqc_hash_ibm.py` lines 107–112):
empty input gives `""`; otherwise reverse the bit string, parse it as a
binary integer, and render `f"{val:0{ceil(n/4)}x}"` (Python renders the
value 0 as the single digit `0` before padding). -/
def to_hash_hex (bitstr : String) (n : Nat) : String :=
  if bitstr = "" then ""
  else
    let val := binToNat (String.mk bitstr.data.reverse)
    let ds := if val = 0 then ['0'] else hexRepAux val val
    String.mk (padZero ((n + 3) / 4) ds)

/-- The distribution-to-digest collapse: modal bit-pattern plus its hex
digest, as performed by `main` (`top = most_frequent_bitstring(counts)`;
`hhex = to_hash_hex(top, args.n)`). -/
def collapse (dist : List (String × Nat)) (n : Nat) : String × String :=
  (most_frequent_bitstring dist, to_hash_hex (most_frequent_bitstring dist) n)

/-! ## Seeded structure generator (`rqc_hash_ibm.py` lines 83–96,
`rqc_hash_visual_notebook.py` lines 15–26) -/

/-- `rng.random() * 2 * math.pi`: the scaling applied to each drawn value. -/
noncomputable def angleOf (v : ℝ) : ℝ := v * 2 * Real.pi

/-- The per-qubit rotation loop of one layer: for each `q` in the given
list, `theta = rng.random() * 2π` is drawn first and `phi = rng.random()
* 2π` second, then `qc.rz(phi, q)` and `qc.rx(theta, q)` are appended.
`c` is the index of the next unconsumed value of the draw stream `s`. -/
noncomputable def rotBlock (s : Nat → ℝ) : Nat → List Nat → List Op
  | _, [] => []
  | c, q :: qs =>
    Op.RotateZ q (angleOf (s (c + 1))) :: Op.RotateX q (angleOf (s c)) ::
      rotBlock s (c + 2) qs

/-- Python `range(start, stop, 2)` as a list. -/
def range2 (start stop : Nat) : List Nat :=
  List.range' start ((stop - start + 1) / 2) 2

/-- The entangling block of one layer: `for q in range(0, n-1, 2): cx(q,q+1)`,
then `for q in range(1, n-1, 2): cx(q, q+1)`, then `if n > 2: cx(n-1, 0)`. -/
def entangleBlock (n : Nat) : List Op :=
  (range2 0 (n - 1)).map (fun q => Op.Entangle q (q + 1)) ++
    (range2 1 (n - 1)).map (fun q => Op.Entangle q (q + 1)) ++
    (if n > 2 then [Op.Entangle (n - 1) 0] else [])

/-- `for _ in range(depth)`: the random layers.  Each layer consumes
`2 * n` draws in the rotation block and none in the entangling block. -/
noncomputable def layers (s : Nat → ℝ) (n : Nat) : Nat → Nat → List Op
  | _, 0 => []
  | c, d + 1 => rotBlock s c (List.range n) ++ entangleBlock n ++ layers s n (c + 2 * n) d

/-- `build_random_circuit(n_qubits, depth, seed, message)` of
`rqc_hash_ibm.py` (lines 62–100): message-encoding prefix, then the
random layers, then measure-all.  The seeded generator
`np.random.default_rng(seed)` is abstracted as the draw stream `s`,
which is consumed only inside the layer loop. -/
noncomputable def build_random_circuit (n d : Nat) (s : Nat → ℝ) (message : List Nat) : List Op :=
  encode message n ++ layers s n 0 d ++ [Op.MeasureAll]

/-- The all-zero draw stream, used to instantiate theorems at a concrete seed. -/
def zeroStream : Nat → ℝ := fun _ => 0

/-- `build_random_circuit(n_qubits, depth, seed)` of
`rqc_hash_visual_notebook.py` (lines 12–27): the bare structure generator,
producing only the rotation layers and entangling pattern. -/
noncomputable def build_random_circuit_nb (n d : Nat) (s : Nat → ℝ) : List Op :=
  layers s n 0 d

/-! ## Backend dispatch of `main` (`rqc_hash_ibm.py` lines 184–215) -/

/-- The `--runtime` argument: one of `"auto"`, `"provider"`, `"cloud"`, `""`. -/
inductive RuntimeMode : Type
  | auto | provider | cloud | unset
deriving DecidableEq

/-- The process-wide backend capabilities and the outcome each backend call
would produce.  `runtimeAvailable` models `_runtime_available`;
`providerAvailable` models `_backend_mode == "provider"`.  Each `…Result`
field is the behaviour of the corresponding call (`run_on_ibm_runtime`,
`run_on_ibm_provider`, `run_on_aer`): `Except.error` models a raised
exception. -/
structure Env : Type where
  runtimeAvailable : Bool
  providerAvailable : Bool
  runtimeResult : Except String (List (String × Nat))
  providerResult : Except String (List (String × Nat))
  aerResult : Except String (List (String × Nat))

/-- The execution-path selection of `main` (`rqc_hash_ibm.py` lines
190–215), returning the provenance string and the counts, or the
exception that escapes `main`.  The runtime attempt sits inside
`try/except` (a failure prints and falls through); the provider attempt
does not (a raised exception propagates); the terminal branch is the Aer
fallback. -/
def dispatch (backend : String) (mode : RuntimeMode) (env : Env) :
    Except String (String × List (String × Nat)) :=
  if backend = "" then
    match env.aerResult with
    | .ok c => .ok ("Aer simulator", c)
    | .error e => .error e
  else
    let runtimeOutcome : Option (String × List (String × Nat)) :=
      if (mode = .auto ∨ mode = .cloud) ∧ env.runtimeAvailable then
        match env.runtimeResult with
        | .ok c => some ("IBM Runtime (backend=" ++ backend ++ ")", c)
        | .error _ => none
      else none
    match runtimeOutcome with
    | some r => .ok r
    | none =>
      if (mode = .auto ∨ mode = .provider ∨ mode = .cloud) ∨ mode = .provider then
        if env.providerAvailable then
          match env.providerResult with
          | .ok c => .ok ("IBM Provider (backend=" ++ backend ++ ")", c)
          | .error e => .error e
        else
          match env.aerResult with
          | .ok c => .ok ("Aer simulator", c)
          | .error e => .error e
      else
        match env.aerResult with
        | .ok c => .ok ("Aer simulator", c)
        | .error e => .error e

/-! ## Specification-side helpers (used only to state and relate theorems) -/

/-- The low `fuel` bits of `b`, least-significant first. -/
def bitsF : Nat → Nat → List Nat
  | _, 0 => []
  | b, fuel + 1 => b % 2 :: bitsF (b >>> 1) fuel

/-- Reference form of the encoding loop over an explicit bit list:
starting at running index `idx`, stop at index `n`, emit `SetBit` for
1-bits.  Both encoders are proved equal to this. -/
def setBitsFrom (n : Nat) : Nat → List Nat → List Op
  | _, [] => []
  | idx, bit :: rest =>
    if idx ≥ n then []
    else (if bit = 1 then [Op.SetBit idx 1] else []) ++ setBitsFrom n (idx + 1) rest

/-- Numeric value of a hexadecimal digit character. -/
def hexCharVal (c : Char) : Nat :=
  if 97 ≤ c.toNat then c.toNat - 87 else c.toNat - 48

/-- Value of a hexadecimal string, most-significant digit first. -/
def hexVal (s : String) : Nat :=
  s.data.foldl (fun a c => 16 * a + hexCharVal c) 0

/-- A lowercase hexadecimal digit character: `0`–`9` or `a`–`f`. -/
def isHexChar (c : Char) : Prop :=
  ('0' ≤ c ∧ c ≤ '9') ∨ ('a' ≤ c ∧ c ≤ 'f')

instance (c : Char) : Decidable (isHexChar c) := by
  unfold isHexChar; infer_instance

/-- Maximum count appearing in a distribution (0 for the empty one). -/
def maxCount (l : List (String × Nat)) : Nat :=
  l.foldl (fun m kv => max m kv.2) 0

/-- The single `max(..., key=...)` step of `most_frequent_bitstring`:
replace the current best only on a strictly greater count. -/
def maxStep (best x : String × Nat) : String × Nat :=
  if x.2 > best.2 then x else best

/-- Whether an operation is an entangling operation. -/
def isEntangle : Op → Bool
  | Op.Entangle _ _ => true
  | _ => false

/-- All qubit indices referenced by an operation lie in `[0, n)`
(`MeasureAll` is a terminal marker referencing no single qubit). -/
def opOK (n : Nat) : Op → Prop
  | Op.SetBit q _ => q < n
  | Op.RotateZ q _ => q < n
  | Op.RotateX q _ => q < n
  | Op.Entangle a b => a < n ∧ b < n
  | Op.MeasureAll => True

/-- A concrete draw stream with two distinct values, used to refute the
claimed draw-to-axis assignment. -/
noncomputable def sC3 : Nat → ℝ := fun i => if i = 0 then 0 else 1 / 2

/-! ## Digest collapser: lemmas -/

theorem binFold_lt (cs : List Char) :
    ∀ acc : Nat,
      cs.foldl (fun a c => 2 * a + (if c = '1' then 1 else 0)) acc < (acc + 1) * 2 ^ cs.length := by
  induction cs with
  | nil => intro acc; simp
  | cons c cs ih =>
    intro acc
    calc cs.foldl (fun a c => 2 * a + (if c = '1' then 1 else 0))
          (2 * acc + (if c = '1' then 1 else 0))
        < (2 * acc + (if c = '1' then 1 else 0) + 1) * 2 ^ cs.length := ih _
      _ ≤ (2 * acc + 2) * 2 ^ cs.length := Nat.mul_le_mul_right _ (by split <;> omega)
      _ = (acc + 1) * 2 ^ (c :: cs).length := by
          rw [List.length_cons, pow_succ]; ring

theorem binToNat_lt (s : String) : binToNat s < 2 ^ s.data.length := by
  simpa [binToNat] using binFold_lt s.data 0

theorem hexCharVal_hexDigit : ∀ d : Nat, d < 16 → hexCharVal (hexDigit d) = d := by decide

theorem isHexChar_hexDigit : ∀ d : Nat, d < 16 → isHexChar (hexDigit d) := by decide

theorem hexRepAux_val (fuel : Nat) :
    ∀ n acc : Nat, n ≤ fuel →
      (hexRepAux fuel n).foldl (fun a c => 16 * a + hexCharVal c) acc
        = acc * 16 ^ (hexRepAux fuel n).length + n := by
  induction fuel with
  | zero => intro n acc h; interval_cases n; simp [hexRepAux]
  | succ fuel ih =>
    intro n acc h
    by_cases hn : n = 0
    · subst hn; simp [hexRepAux]
    · rw [hexRepAux, if_neg hn, List.foldl_append, List.length_append,
        ih (n / 16) acc (by omega)]
      have hmod := Nat.div_add_mod n 16
      simp only [List.foldl, List.length_cons, List.length_nil]
      rw [hexCharVal_hexDigit (n % 16) (Nat.mod_lt _ (by norm_num))]
      calc 16 * (acc * 16 ^ (hexRepAux fuel (n / 16)).length + n / 16) + n % 16
          = acc * (16 ^ (hexRepAux fuel (n / 16)).length * 16)
              + (16 * (n / 16) + n % 16) := by ring
        _ = acc * 16 ^ ((hexRepAux fuel (n / 16)).length + (0 + 1)) + n := by
            rw [hmod, pow_succ]

theorem hexRepAux_length (fuel : Nat) :
    ∀ n w : Nat, n < 16 ^ w → (hexRepAux fuel n).length ≤ w := by
  induction fuel with
  | zero => intro n w _; simp [hexRepAux]
  | succ fuel ih =>
    intro n w h
    by_cases hn : n = 0
    · subst hn; simp [hexRepAux]
    · rw [hexRepAux, if_neg hn, List.length_append]
      cases w with
      | zero => simp at h; omega
      | succ w =>
        have hdiv : n / 16 < 16 ^ w := by
          rw [Nat.div_lt_iff_lt_mul (by norm_num)]
          rw [pow_succ] at h; exact h
        have := ih (n / 16) w hdiv
        simp only [List.length_cons, List.length_nil]
        omega

theorem hexRepAux_mem (fuel : Nat) :
    ∀ n c, c ∈ hexRepAux fuel n → ∃ d, d < 16 ∧ c = hexDigit d := by
  induction fuel with
  | zero => intro n c hc; simp [hexRepAux] at hc
  | succ fuel ih =>
    intro n c hc
    rw [hexRepAux] at hc
    by_cases hn : n = 0
    · rw [if_pos hn] at hc; simp at hc
    · rw [if_neg hn, List.mem_append] at hc
      rcases hc with hc | hc
      · exact ih _ c hc
      · exact ⟨n % 16, Nat.mod_lt _ (by norm_num), by simpa using hc⟩

theorem foldl_replicate_zero (k : Nat) :
    (List.replicate k '0').foldl (fun a c => 16 * a + hexCharVal c) 0 = 0 := by
  induction k with
  | zero => rfl
  | succ k ih => simpa [List.replicate, hexCharVal] using ih

/-- C1: for every non-empty bit-pattern the digest is the reversed pattern
read as a binary integer, rendered in lowercase hexadecimal, zero-padded to
`ceil(n/4)` digits: the digest of a length-`n` bit-pattern has exactly
`ceil(n/4)` characters, all lowercase hex digits, whose hexadecimal value is
the reversed pattern's binary value; and `to_hash_hex "110" 3 = "3"`. -/
theorem rqc_C1 :
    to_hash_hex "110" 3 = "3"
    ∧ ∀ (s : String) (n : Nat), 0 < n → s.data.length = n →
        (∀ c ∈ s.data, c = '0' ∨ c = '1') →
        (to_hash_hex s n).length = (n + 3) / 4
        ∧ hexVal (to_hash_hex s n) = binToNat (String.mk s.data.reverse)
        ∧ ∀ c ∈ (to_hash_hex s n).data, isHexChar c := by
  refine ⟨rfl, ?_⟩
  intro s n hn hlen _hbin
  have hne : ¬ s = "" := by
    intro h; subst h; simp at hlen; omega
  set val := binToNat (String.mk s.data.reverse) with hval_def
  have hvlt : val < 2 ^ n := by
    have h := binToNat_lt (String.mk s.data.reverse)
    simpa [hlen] using h
  have hw1 : 1 ≤ (n + 3) / 4 := by omega
  have h16 : val < 16 ^ ((n + 3) / 4) := by
    calc val < 2 ^ n := hvlt
      _ ≤ 2 ^ (4 * ((n + 3) / 4)) := Nat.pow_le_pow_right (by norm_num) (by omega)
      _ = 16 ^ ((n + 3) / 4) := by rw [pow_mul]; norm_num
  set ds := if val = 0 then ['0'] else hexRepAux val val with hds_def
  have hds_le : ds.length ≤ (n + 3) / 4 := by
    rw [hds_def]; split
    · simpa using hw1
    · exact hexRepAux_length val val _ h16
  have hval_ds : ds.foldl (fun a c => 16 * a + hexCharVal c) 0 = val := by
    rw [hds_def]; split
    · next h0 => simp [List.foldl, hexCharVal, h0]
    · simpa using hexRepAux_val val val 0 le_rfl
  have hgoal_eq : to_hash_hex s n = String.mk (padZero ((n + 3) / 4) ds) := by
    rw [to_hash_hex, if_neg hne]
  refine ⟨?_, ?_, ?_⟩
  · rw [hgoal_eq]
    show (padZero ((n + 3) / 4) ds).length = (n + 3) / 4
    rw [padZero, List.length_append, List.length_replicate]
    omega
  · rw [hgoal_eq]
    show (padZero ((n + 3) / 4) ds).foldl (fun a c => 16 * a + hexCharVal c) 0 = val
    rw [padZero, List.foldl_append, foldl_replicate_zero, hval_ds]
  · rw [hgoal_eq]
    intro c hc
    rw [show (String.mk (padZero ((n + 3) / 4) ds)).data = padZero ((n + 3) / 4) ds from rfl,
      padZero, List.mem_append] at hc
    rcases hc with hc | hc
    · rw [List.mem_replicate] at hc
      rw [hc.2]; decide
    · rw [hds_def] at hc
      rcases (by assumption : c ∈ if val = 0 then ['0'] else hexRepAux val val) with _
      revert hc
      split
      · intro hc; simp at hc; rw [hc]; decide
      · intro hc
        obtain ⟨d, hd, rfl⟩ := hexRepAux_mem val val c hc
        exact isHexChar_hexDigit d hd

theorem rqc_C1_witness :
    0 < 3
    ∧ (to_hash_hex "110" 3).length = (3 + 3) / 4
    ∧ hexVal (to_hash_hex "110" 3) = binToNat (String.mk ("110" : String).data.reverse) := by
  have h := (rqc_C1.2 "110" 3 (by decide) (by decide) (by decide))
  exact ⟨by decide, h.1, h.2.1⟩

/-- C7: collapsing the empty distribution yields the empty bit-pattern and
the empty digest for every positive qubit count, without error. -/
theorem rqc_C7 : ∀ n : Nat, 0 < n → collapse [] n = ("", "") := fun _ _ => rfl

theorem rqc_C7_witness : 0 < 3 ∧ collapse [] 3 = ("", "") :=
  ⟨by decide, rqc_C7 3 (by decide)⟩

/-- C6 (code bug): with a non-empty backend selector, mode `auto`, the
runtime capability absent and the provider capability present, a raised
provider exception propagates out of the dispatch even though the local
Aer evaluator is present (first conjunct) — the claimed catch-and-fall-
through happens only for the runtime attempt (second conjunct). -/
theorem rqc_C6 :
    dispatch "ibm_osaka" RuntimeMode.auto
      ⟨false, true, Except.error "runtime unavailable",
        Except.error "connection refused", Except.ok [("000", 1024)]⟩
      = Except.error "connection refused"
    ∧ dispatch "ibm_osaka" RuntimeMode.auto
      ⟨true, false, Except.error "authentication failed",
        Except.error "connection refused", Except.ok [("000", 1024)]⟩
      = Except.ok ("Aer simulator", [("000", 1024)]) := by
  constructor <;> rfl

/-! ## Modal-bit-pattern selection: lemmas -/

theorem maxStep_foldl_spec (l : List (String × Nat)) :
    ∀ kv0 : String × Nat,
      (l.foldl maxStep kv0 ∈ kv0 :: l)
      ∧ (∀ kv ∈ kv0 :: l, kv.2 ≤ (l.foldl maxStep kv0).2)
      ∧ ∃ l1 l2, kv0 :: l = l1 ++ (l.foldl maxStep kv0) :: l2
          ∧ ∀ kv ∈ l1, kv.2 < (l.foldl maxStep kv0).2 := by
  induction l with
  | nil =>
    intro kv0
    exact ⟨List.mem_cons_self _ _, by simp, [], [], rfl, by simp⟩
  | cons x xs ih =>
    intro kv0
    have hfold : (x :: xs).foldl maxStep kv0 = xs.foldl maxStep (maxStep kv0 x) := rfl
    obtain ⟨hmem, hbound, l1, l2, hdec, hlt⟩ := ih (maxStep kv0 x)
    rw [hfold]
    set r := xs.foldl maxStep (maxStep kv0 x) with hr
    by_cases hx : x.2 > kv0.2
    · have hstep : maxStep kv0 x = x := by rw [maxStep, if_pos hx]
      rw [hstep] at hmem hbound hdec
      have hxr : x.2 ≤ r.2 := hbound x (List.mem_cons_self _ _)
      refine ⟨List.mem_cons_of_mem _ hmem, ?_, kv0 :: l1, l2, ?_, ?_⟩
      · intro kv hkv
        rcases List.mem_cons.mp hkv with rfl | hkv
        · omega
        · exact hbound kv hkv
      · rw [List.cons_append, ← hdec]
      · intro kv hkv
        rcases List.mem_cons.mp hkv with rfl | hkv
        · omega
        · exact hlt kv hkv
    · have hstep : maxStep kv0 x = kv0 := by rw [maxStep, if_neg hx]
      rw [hstep] at hmem hbound hdec
      have hkv0r : kv0.2 ≤ r.2 := hbound kv0 (List.mem_cons_self _ _)
      refine ⟨?_, ?_, ?_⟩
      · rcases List.mem_cons.mp hmem with hk | hmem
        · rw [hk]; exact List.mem_cons_self _ _
        · exact List.mem_cons_of_mem _ (List.mem_cons_of_mem _ hmem)
      · intro kv hkv
        rcases List.mem_cons.mp hkv with rfl | hkv
        · exact hkv0r
        rcases List.mem_cons.mp hkv with rfl | hkv
        · omega
        · exact hbound kv (List.mem_cons_of_mem _ hkv)
      · cases l1 with
        | nil =>
          rw [List.nil_append] at hdec
          injection hdec with hk hxs
          refine ⟨[], x :: xs, ?_, by simp⟩
          rw [List.nil_append, ← hk, hxs]
        | cons y t =>
          rw [List.cons_append] at hdec
          injection hdec with hy hxs
          have hkv0lt : kv0.2 < r.2 := by
            rw [hy]; exact hlt y (List.mem_cons_self _ _)
          refine ⟨kv0 :: x :: t, l2, ?_, ?_⟩
          · rw [List.cons_append, List.cons_append, hxs]
          · intro kv hkv
            rcases List.mem_cons.mp hkv with rfl | hkv
            · exact hkv0lt
            rcases List.mem_cons.mp hkv with rfl | hkv
            · omega
            · exact hlt kv (List.mem_cons_of_mem _ hkv)

theorem foldl_max_init_le (l : List (String × Nat)) :
    ∀ init : Nat, init ≤ l.foldl (fun m kv => max m kv.2) init := by
  induction l with
  | nil => intro init; simp
  | cons x xs ih =>
    intro init
    calc init ≤ max init x.2 := le_max_left _ _
      _ ≤ xs.foldl (fun m kv => max m kv.2) (max init x.2) := ih _

theorem foldl_max_mem_le (l : List (String × Nat)) :
    ∀ (kv : String × Nat) (init : Nat), kv ∈ l →
      kv.2 ≤ l.foldl (fun m kv => max m kv.2) init := by
  induction l with
  | nil => intro kv init h; simp at h
  | cons x xs ih =>
    intro kv init h
    rcases List.mem_cons.mp h with rfl | h
    · calc kv.2 ≤ max init kv.2 := le_max_right _ _
        _ ≤ xs.foldl (fun m kv => max m kv.2) (max init kv.2) := foldl_max_init_le xs _
    · exact ih kv _ h

theorem foldl_max_le (l : List (String × Nat)) :
    ∀ (M init : Nat), (∀ kv ∈ l, kv.2 ≤ M) → init ≤ M →
      l.foldl (fun m kv => max m kv.2) init ≤ M := by
  induction l with
  | nil => intro M init _ h; simpa using h
  | cons x xs ih =>
    intro M init hall hinit
    exact ih M _ (fun kv hkv => hall kv (List.mem_cons_of_mem _ hkv))
      (max_le hinit (hall x (List.mem_cons_self _ _)))

/-- C5 (amended): the collapser selects a bit-pattern of maximum count, and
ties are broken by the first such pattern in the distribution's iteration
order (Python `max` keeps the earliest maximal item), not the
lexicographically smallest one. -/
theorem rqc_C5 :
    ∀ l : List (String × Nat), l ≠ [] →
      ((most_frequent_bitstring l, maxCount l) ∈ l)
      ∧ (∀ kv ∈ l, kv.2 ≤ maxCount l)
      ∧ List.find? (fun kv => kv.2 == maxCount l) l
          = some (most_frequent_bitstring l, maxCount l) := by
  intro l hl
  match l with
  | [] => exact absurd rfl hl
  | kv0 :: rest =>
    obtain ⟨hmem, hbound, l1, l2, hdec, hlt⟩ := maxStep_foldl_spec rest kv0
    set r := rest.foldl maxStep kv0 with hr
    have hmf : most_frequent_bitstring (kv0 :: rest) = r.1 := rfl
    have hmax : maxCount (kv0 :: rest) = r.2 := by
      apply le_antisymm
      · exact foldl_max_le _ _ _ hbound (Nat.zero_le _)
      · exact foldl_max_mem_le _ r 0 hmem
    have hpair : (most_frequent_bitstring (kv0 :: rest), maxCount (kv0 :: rest)) = r := by
      rw [hmf, hmax]
    refine ⟨?_, ?_, ?_⟩
    · rw [hpair]; exact hmem
    · intro kv hkv; rw [hmax]; exact hbound kv hkv
    · rw [hpair, hmax, hdec, List.find?_append]
      have h1 : List.find? (fun kv => kv.2 == r.2) l1 = none := by
        rw [List.find?_eq_none]
        intro x hx
        have := hlt x hx
        simp only [beq_iff_eq]
        omega
      have h2 : List.find? (fun kv => kv.2 == r.2) (r :: l2) = some r :=
        List.find?_cons_of_pos _ (by simp)
      rw [h1, h2]
      rfl

/-- C5 counterexample: on the tied distribution `{"1": 5, "0": 5}` the code
returns `"1"`, the first key in iteration order, although `"0"` is the
lexicographically smallest tied key. -/
theorem rqc_C5_counterexample :
    most_frequent_bitstring [("1", 5), ("0", 5)] = "1"
    ∧ most_frequent_bitstring [("1", 5), ("0", 5)] ≠ "0"
    ∧ ("0" : String) < "1" := by
  refine ⟨rfl, by decide, ?_⟩
  rw [String.lt_iff_toList_lt]; decide

theorem rqc_C5_witness :
    ([("1", 5), ("0", 5)] : List (String × Nat)) ≠ []
    ∧ List.find? (fun kv => kv.2 == maxCount [("1", 5), ("0", 5)]) [("1", 5), ("0", 5)]
        = some (most_frequent_bitstring [("1", 5), ("0", 5)],
            maxCount [("1", 5), ("0", 5)]) :=
  ⟨by decide, (rqc_C5 [("1", 5), ("0", 5)] (by decide)).2.2⟩

/-! ## Message encoder: lemmas -/

theorem bitsF_length : ∀ (fuel b : Nat), (bitsF b fuel).length = fuel := by
  intro fuel
  induction fuel with
  | zero => intro b; rfl
  | succ fuel ih => intro b; simp [bitsF, ih]

theorem setBitsFrom_stop (n : Nat) (l : List Nat) (idx : Nat) (h : idx ≥ n) :
    setBitsFrom n idx l = [] := by
  cases l with
  | nil => rfl
  | cons bit rest => rw [setBitsFrom, if_pos h]

theorem encodeByte_eq (n : Nat) :
    ∀ (fuel b bitIdx : Nat),
      encodeByte n b bitIdx fuel
        = (setBitsFrom n bitIdx (bitsF b fuel), bitIdx + min fuel (n - bitIdx)) := by
  intro fuel
  induction fuel with
  | zero => intro b bitIdx; simp [encodeByte, bitsF, setBitsFrom]
  | succ fuel ih =>
    intro b bitIdx
    by_cases hge : bitIdx ≥ n
    · have h0 : n - bitIdx = 0 := by omega
      simp [encodeByte, bitsF, setBitsFrom, hge, h0]
    · by_cases hb : b % 2 = 1
      · simp [encodeByte, bitsF, setBitsFrom, hge, hb, ih]
        omega
      · simp [encodeByte, bitsF, setBitsFrom, hge, hb, ih]
        omega

theorem setBitsFrom_append (n : Nat) :
    ∀ (l1 l2 : List Nat) (idx : Nat),
      setBitsFrom n idx (l1 ++ l2)
        = setBitsFrom n idx l1 ++ setBitsFrom n (idx + min l1.length (n - idx)) l2 := by
  intro l1
  induction l1 with
  | nil => intro l2 idx; simp [setBitsFrom]
  | cons bit t ih =>
    intro l2 idx
    rw [List.cons_append]
    by_cases hge : idx ≥ n
    · have h0 : n - idx = 0 := by omega
      rw [setBitsFrom_stop n _ idx hge, setBitsFrom_stop n (bit :: t) idx hge, h0]
      simp [setBitsFrom_stop n l2 idx hge]
    · simp only [setBitsFrom, if_neg hge]
      rw [ih l2 (idx + 1), List.append_assoc]
      have harith : idx + 1 + min t.length (n - (idx + 1))
          = idx + min (bit :: t).length (n - idx) := by
        simp only [List.length_cons]; omega
      rw [harith]

theorem encodeFrom_eq (n : Nat) :
    ∀ (msg : List Nat) (bitIdx : Nat),
      encodeFrom n msg bitIdx
        = setBitsFrom n bitIdx (msg.flatMap (fun b => bitsF b 8)) := by
  intro msg
  induction msg with
  | nil => intro bitIdx; simp [encodeFrom, setBitsFrom]
  | cons b rest ih =>
    intro bitIdx
    rw [List.flatMap_cons, setBitsFrom_append]
    show (encodeByte n b bitIdx 8).1 ++ encodeFrom n rest (encodeByte n b bitIdx 8).2 = _
    rw [encodeByte_eq n 8 b bitIdx, ih, bitsF_length]

theorem range8_map_bits (b : Nat) :
    (List.range 8).map (fun i => (b >>> i) % 2) = bitsF b 8 := by
  rw [show List.range 8 = [0, 1, 2, 3, 4, 5, 6, 7] from rfl]
  simp [bitsF, Nat.shiftRight_succ, Nat.shiftRight_zero]

theorem encode_eq (msg : List Nat) (n : Nat) :
    encode msg n = setBitsFrom n 0 (msgBits msg) := by
  rw [encode, encodeFrom_eq, msgBits]
  simp only [range8_map_bits]

theorem setBitsFrom_filterMap (n : Nat) :
    ∀ (bits : List Nat) (idx : Nat),
      setBitsFrom n idx bits
        = (List.enumFrom idx (bits.take (n - idx))).filterMap
            (fun p => if p.2 = 1 then some (Op.SetBit p.1 1) else none) := by
  intro bits
  induction bits with
  | nil => intro idx; simp [setBitsFrom]
  | cons bit rest ih =>
    intro idx
    by_cases hge : idx ≥ n
    · have h0 : n - idx = 0 := by omega
      rw [setBitsFrom_stop n _ idx hge, h0]
      rfl
    · have hpos : n - idx = (n - (idx + 1)) + 1 := by omega
      rw [hpos, List.take_succ_cons]
      show _ = List.filterMap _ ((idx, bit) :: List.enumFrom (idx + 1) (rest.take (n - (idx + 1))))
      rw [List.filterMap_cons, setBitsFrom, if_neg hge, ih (idx + 1)]
      by_cases hb : bit = 1
      · simp [hb]
      · simp [hb]

theorem encodeEnum_enumFrom (n : Nat) :
    ∀ (bits : List Nat) (k : Nat), (∀ x ∈ bits, x ≤ 1) →
      encodeEnum n (List.enumFrom k bits) = setBitsFrom n k bits := by
  intro bits
  induction bits with
  | nil => intro k _; rfl
  | cons bit rest ih =>
    intro k hle
    show encodeEnum n ((k, bit) :: List.enumFrom (k + 1) rest) = _
    rw [encodeEnum, setBitsFrom]
    by_cases hge : k ≥ n
    · rw [if_pos hge, if_pos hge]
    · rw [if_neg hge, if_neg hge, ih (k + 1) (fun x hx => hle x (List.mem_cons_of_mem _ hx))]
      congr 1
      have hb := hle bit (List.mem_cons_self _ _)
      interval_cases bit <;> simp

theorem msgBits_le_one (msg : List Nat) : ∀ x ∈ msgBits msg, x ≤ 1 := by
  intro x hx
  rw [msgBits, List.mem_flatMap] at hx
  obtain ⟨b, _, hx⟩ := hx
  rw [List.mem_map] at hx
  obtain ⟨i, _, rfl⟩ := hx
  have : (b >>> i) % 2 < 2 := Nat.mod_lt _ (by norm_num)
  omega

theorem encode_message_eq (msg : List Nat) (n : Nat) :
    encode_message msg n = setBitsFrom n 0 (msgBits msg) := by
  rw [encode_message]
  exact encodeEnum_enumFrom n (msgBits msg) 0 (msgBits_le_one msg)

/-- C2: the encoder consumes the message's bits byte by byte,
least-significant bit first within each byte, truncating silently at the
running bit index `n`, and appends `SetBit i 1` exactly for the consumed
1-bits: both encoders equal the filter-map of the first `n` message bits;
`encode [0x01] 8` sets exactly qubit 0, `encode [0x80] 8` exactly qubit 7,
and `encode [0xff, 0xff] 4` exactly qubits 0–3. -/
theorem rqc_C2 :
    (∀ (msg : List Nat) (n : Nat),
      encode msg n
        = ((msgBits msg).take n).enum.filterMap
            (fun p => if p.2 = 1 then some (Op.SetBit p.1 1) else none)
      ∧ encode_message msg n = encode msg n)
    ∧ encode [1] 8 = [Op.SetBit 0 1]
    ∧ encode [128] 8 = [Op.SetBit 7 1]
    ∧ encode [255, 255] 4
        = [Op.SetBit 0 1, Op.SetBit 1 1, Op.SetBit 2 1, Op.SetBit 3 1] := by
  refine ⟨?_, rfl, rfl, rfl⟩
  intro msg n
  constructor
  · rw [encode_eq, setBitsFrom_filterMap]
    simp only [Nat.sub_zero]
    rfl
  · rw [encode_message_eq, encode_eq]

/-! ## Seeded structure generator: lemmas -/

theorem rotBlock_range' (s : Nat → ℝ) :
    ∀ (k a c : Nat),
      rotBlock s c (List.range' a k)
        = (List.range k).flatMap (fun j =>
            [Op.RotateZ (a + j) (angleOf (s (c + 2 * j + 1))),
             Op.RotateX (a + j) (angleOf (s (c + 2 * j)))]) := by
  intro k
  induction k with
  | zero => intro a c; rfl
  | succ k ih =>
    intro a c
    rw [List.range'_succ, rotBlock, ih (a + 1) (c + 2),
      List.range_succ_eq_map, List.flatMap_cons, List.flatMap_map]
    have hfun : (fun j => [Op.RotateZ (a + 1 + j) (angleOf (s (c + 2 + 2 * j + 1))),
          Op.RotateX (a + 1 + j) (angleOf (s (c + 2 + 2 * j)))])
        = (fun j => [Op.RotateZ (a + Nat.succ j) (angleOf (s (c + 2 * Nat.succ j + 1))),
          Op.RotateX (a + Nat.succ j) (angleOf (s (c + 2 * Nat.succ j)))]) := by
      funext j
      have h1 : a + 1 + j = a + Nat.succ j := by omega
      have h2 : c + 2 + 2 * j + 1 = c + 2 * Nat.succ j + 1 := by omega
      have h3 : c + 2 + 2 * j = c + 2 * Nat.succ j := by omega
      rw [h1, h2, h3]
    rw [hfun]
    simp

theorem rotBlock_shape (s : Nat → ℝ) :
    ∀ (qs : List Nat) (c : Nat) (op : Op), op ∈ rotBlock s c qs →
      ∃ q ∈ qs, ∃ a, op = Op.RotateZ q a ∨ op = Op.RotateX q a := by
  intro qs
  induction qs with
  | nil => intro c op h; simp [rotBlock] at h
  | cons q qs ih =>
    intro c op h
    rw [rotBlock] at h
    rcases List.mem_cons.mp h with rfl | h
    · exact ⟨q, List.mem_cons_self _ _, _, Or.inl rfl⟩
    · rcases List.mem_cons.mp h with rfl | h
      · exact ⟨q, List.mem_cons_self _ _, _, Or.inr rfl⟩
      · obtain ⟨q', hq', a, ha⟩ := ih (c + 2) op h
        exact ⟨q', List.mem_cons_of_mem _ hq', a, ha⟩

theorem entangleBlock_shape (n : Nat) :
    ∀ op ∈ entangleBlock n, ∃ a b, op = Op.Entangle a b := by
  intro op h
  rw [entangleBlock, List.mem_append, List.mem_append] at h
  rcases h with (h | h) | h
  · obtain ⟨q, _, rfl⟩ := List.mem_map.mp h
    exact ⟨q, q + 1, rfl⟩
  · obtain ⟨q, _, rfl⟩ := List.mem_map.mp h
    exact ⟨q, q + 1, rfl⟩
  · revert h
    split
    · intro h
      rw [List.mem_singleton.mp h]
      exact ⟨n - 1, 0, rfl⟩
    · intro h; simp at h

theorem entangleBlock_opOK (n : Nat) (hn : 0 < n) :
    ∀ op ∈ entangleBlock n, opOK n op := by
  intro op h
  rw [entangleBlock, List.mem_append, List.mem_append] at h
  rcases h with (h | h) | h
  · obtain ⟨q, hq, rfl⟩ := List.mem_map.mp h
    rw [range2, List.mem_range'] at hq
    obtain ⟨i, hi, rfl⟩ := hq
    exact ⟨by omega, by omega⟩
  · obtain ⟨q, hq, rfl⟩ := List.mem_map.mp h
    rw [range2, List.mem_range'] at hq
    obtain ⟨i, hi, rfl⟩ := hq
    exact ⟨by omega, by omega⟩
  · revert h
    split
    · intro h
      rw [List.mem_singleton.mp h]
      exact ⟨by omega, by omega⟩
    · intro h; simp at h

theorem layers_opOK (s : Nat → ℝ) (n : Nat) (hn : 0 < n) :
    ∀ (d c : Nat) (op : Op), op ∈ layers s n c d → opOK n op := by
  intro d
  induction d with
  | zero => intro c op h; simp [layers] at h
  | succ d ih =>
    intro c op h
    rw [layers, List.mem_append, List.mem_append] at h
    rcases h with (h | h) | h
    · obtain ⟨q, hq, a, ha⟩ := rotBlock_shape s _ _ op h
      rw [List.mem_range] at hq
      rcases ha with rfl | rfl <;> exact hq
    · exact entangleBlock_opOK n hn op h
    · exact ih _ op h

theorem layers_not_setBit (s : Nat → ℝ) (n : Nat) :
    ∀ (d c : Nat) (op : Op), op ∈ layers s n c d → ∀ i v, op ≠ Op.SetBit i v := by
  intro d
  induction d with
  | zero => intro c op h; simp [layers] at h
  | succ d ih =>
    intro c op h
    rw [layers, List.mem_append, List.mem_append] at h
    rcases h with (h | h) | h
    · obtain ⟨q, _, a, ha⟩ := rotBlock_shape s _ _ op h
      rcases ha with rfl | rfl <;> exact fun i v hc => Op.noConfusion hc
    · obtain ⟨a, b, rfl⟩ := entangleBlock_shape n op h
      exact fun i v hc => Op.noConfusion hc
    · exact ih _ op h

theorem setBitsFrom_shape (n : Nat) :
    ∀ (bits : List Nat) (idx : Nat) (op : Op), op ∈ setBitsFrom n idx bits →
      ∃ i, i < n ∧ op = Op.SetBit i 1 := by
  intro bits
  induction bits with
  | nil => intro idx op h; simp [setBitsFrom] at h
  | cons bit rest ih =>
    intro idx op h
    rw [setBitsFrom] at h
    by_cases hge : idx ≥ n
    · rw [if_pos hge] at h; simp at h
    · rw [if_neg hge, List.mem_append] at h
      rcases h with h | h
      · by_cases hb : bit = 1
        · rw [if_pos hb] at h
          rw [List.mem_singleton.mp h]
          exact ⟨idx, by omega, rfl⟩
        · rw [if_neg hb] at h; simp at h
      · exact ih (idx + 1) op h

/-- C3 (amended): in every layer, for each qubit `q` in ascending order two
values are drawn in sequence — the first is the X-axis angle `theta` and the
second the Z-axis angle `phi`, each scaled to `[0, 2π)` — and the operations
appended are `RotateZ(q, phi)` (the second draw) then `RotateX(q, theta)`
(the first draw). -/
theorem rqc_C3 :
    (∀ (s : Nat → ℝ) (n c d : Nat),
      layers s n c (d + 1)
        = rotBlock s c (List.range n) ++ entangleBlock n ++ layers s n (c + 2 * n) d)
    ∧ (∀ (s : Nat → ℝ) (n c : Nat),
      rotBlock s c (List.range n)
        = (List.range n).flatMap (fun q =>
            [Op.RotateZ q (angleOf (s (c + 2 * q + 1))),
             Op.RotateX q (angleOf (s (c + 2 * q)))]))
    ∧ (∀ v : ℝ, 0 ≤ v → v < 1 → 0 ≤ angleOf v ∧ angleOf v < 2 * Real.pi) := by
  refine ⟨fun s n c d => rfl, ?_, ?_⟩
  · intro s n c
    conv_lhs => rw [List.range_eq_range']
    rw [rotBlock_range' s n 0 c]
    simp
  · intro v h0 h1
    constructor
    · exact mul_nonneg (mul_nonneg h0 (by norm_num)) Real.pi_pos.le
    · have hpi := Real.pi_pos
      rw [angleOf]
      nlinarith

theorem rqc_C3_witness :
    (0 : ℝ) ≤ 1 / 2 ∧ (1 / 2 : ℝ) < 1
    ∧ 0 ≤ angleOf (1 / 2) ∧ angleOf (1 / 2) < 2 * Real.pi :=
  ⟨by norm_num, by norm_num, rqc_C3.2.2 (1 / 2) (by norm_num) (by norm_num)⟩

/-- C3 counterexample: for a one-layer, one-qubit generation with the draw
stream `sC3` (first draw 0, second draw 1/2), the code appends
`RotateZ 0 (angleOf (sC3 1))` then `RotateX 0 (angleOf (sC3 0))` — not the
claimed `RotateZ` of the first draw followed by `RotateX` of the second. -/
theorem rqc_C3_counterexample :
    build_random_circuit_nb 1 1 sC3
      ≠ [Op.RotateZ 0 (angleOf (sC3 0)), Op.RotateX 0 (angleOf (sC3 1))] := by
  have hlhs : build_random_circuit_nb 1 1 sC3
      = [Op.RotateZ 0 (angleOf (sC3 1)), Op.RotateX 0 (angleOf (sC3 0))] := rfl
  rw [hlhs]
  intro h
  simp only [List.cons.injEq, Op.RotateZ.injEq, Op.RotateX.injEq] at h
  obtain ⟨⟨-, hangle⟩, -⟩ := h
  have h0 : sC3 0 = 0 := by simp [sC3]
  have h1 : sC3 1 = 1 / 2 := by simp [sC3]
  rw [h0, h1, angleOf, angleOf] at hangle
  have hpi := Real.pi_ne_zero
  have : Real.pi = 0 := by nlinarith [hangle]
  exact hpi this

/-- C4 (amended): for every seed stream, `generate(2, 1, S)` contains
exactly one entangling operation, the even pair `(0,1)`, and no wrap-around;
`generate(3, 1, S)` contains the even pair `(0,1)`, the odd pair `(1,2)`,
and the wrap-around pair `(2,0)`, in that order. -/
theorem rqc_C4 :
    ∀ s : Nat → ℝ,
      (build_random_circuit_nb 2 1 s).filter isEntangle = [Op.Entangle 0 1]
      ∧ (build_random_circuit_nb 3 1 s).filter isEntangle
          = [Op.Entangle 0 1, Op.Entangle 1 2, Op.Entangle 2 0] :=
  fun _ => ⟨rfl, rfl⟩

/-- C4 counterexample: at qubit count 3 the generated layer does contain the
odd entangling pair `(1, 2)` (Python `range(1, 2, 2) = [1]`), contradicting
the claim that no odd pair occurs. -/
theorem rqc_C4_counterexample :
    Op.Entangle 1 2 ∈ build_random_circuit_nb 3 1 zeroStream := by
  rw [show build_random_circuit_nb 3 1 zeroStream
      = [Op.RotateZ 0 (angleOf 0), Op.RotateX 0 (angleOf 0),
         Op.RotateZ 1 (angleOf 0), Op.RotateX 1 (angleOf 0),
         Op.RotateZ 2 (angleOf 0), Op.RotateX 2 (angleOf 0),
         Op.Entangle 0 1, Op.Entangle 1 2, Op.Entangle 2 0] from rfl]
  simp

/-- C8: the generator is a pure function of `(qubit_count, depth, seed)`:
its output depends only on the values of the seeded draw stream, so two
calls with the same inputs produce identical operation sequences. -/
theorem rqc_C8 :
    ∀ (n d : Nat) (s s' : Nat → ℝ) (msg : List Nat),
      (∀ i, s i = s' i) →
      build_random_circuit n d s msg = build_random_circuit n d s' msg := by
  intro n d s s' msg h
  rw [funext h]

theorem rqc_C8_witness :
    build_random_circuit 1 1 zeroStream [] = build_random_circuit 1 1 zeroStream [] :=
  rqc_C8 1 1 zeroStream zeroStream [] (fun _ => rfl)

/-- C9: every operation of a constructed circuit references only qubit
indices in `[0, qubit_count)`. -/
theorem rqc_C9 :
    ∀ (n d : Nat) (s : Nat → ℝ) (msg : List Nat), 0 < n →
      ∀ op ∈ build_random_circuit n d s msg, opOK n op := by
  intro n d s msg hn op h
  rw [build_random_circuit, List.mem_append, List.mem_append] at h
  rcases h with (h | h) | h
  · rw [encode_eq] at h
    obtain ⟨i, hi, rfl⟩ := setBitsFrom_shape n _ 0 op h
    exact hi
  · exact layers_opOK s n hn d 0 op h
  · rw [List.mem_singleton.mp h]
    trivial

theorem rqc_C9_witness :
    0 < 1 ∧ Op.SetBit 0 1 ∈ build_random_circuit 1 0 zeroStream [1]
    ∧ opOK 1 (Op.SetBit 0 1) := by
  have hmem : Op.SetBit 0 1 ∈ build_random_circuit 1 0 zeroStream [1] := by
    rw [show build_random_circuit 1 0 zeroStream [1]
        = [Op.SetBit 0 1, Op.MeasureAll] from rfl]
    exact List.mem_cons_self _ _
  exact ⟨by decide, hmem, rqc_C9 1 0 zeroStream [1] (by decide) (Op.SetBit 0 1) hmem⟩

/-- C10: the generated layers are independent of the message — the suffix
after the encoding prefix is the same for any two messages (the draw stream
is consumed only in the layer loop); the message influences only the
`SetBit` prefix, and no layer operation is a `SetBit`. -/
theorem rqc_C10 :
    ∀ (n d : Nat) (s : Nat → ℝ) (m1 m2 : List Nat),
      (build_random_circuit n d s m1).drop (encode m1 n).length
        = (build_random_circuit n d s m2).drop (encode m2 n).length
      ∧ (∀ (msg : List Nat) (op : Op), op ∈ encode msg n → ∃ i, i < n ∧ op = Op.SetBit i 1)
      ∧ (∀ (c d2 : Nat) (op : Op), op ∈ layers s n c d2 → ∀ i v, op ≠ Op.SetBit i v) := by
  intro n d s m1 m2
  refine ⟨?_, ?_, ?_⟩
  · rw [build_random_circuit, build_random_circuit, List.append_assoc, List.append_assoc,
      List.drop_left, List.drop_left]
  · intro msg op h
    rw [encode_eq] at h
    exact setBitsFrom_shape n _ 0 op h
  · intro c d2 op h
    exact layers_not_setBit s n d2 c op h

theorem rqc_C10_witness :
    Op.RotateZ 0 (angleOf (zeroStream 1)) ∈ layers zeroStream 1 0 1
    ∧ Op.RotateZ 0 (angleOf (zeroStream 1)) ≠ Op.SetBit 0 1 := by
  have hmem : Op.RotateZ 0 (angleOf (zeroStream 1)) ∈ layers zeroStream 1 0 1 := by
    rw [show layers zeroStream 1 0 1
        = [Op.RotateZ 0 (angleOf (zeroStream 1)),
           Op.RotateX 0 (angleOf (zeroStream 0))] from rfl]
    exact List.mem_cons_self _ _
  exact ⟨hmem, (rqc_C10 1 1 zeroStream [] []).2.2 0 1 _ hmem 0 1⟩

end RQC
